import Mathlib

/-!
Verification of the core pipeline of a terminal audio visualizer
(src/main.rs). The program decodes an audio file into a vector of signed
16-bit samples, a background thread computes one normalized loudness value
per 50 ms chunk and appends it to a mutex-guarded bounded vector
(`audio_levels`), and a foreground render loop snapshots that vector and
draws a bar chart until the quit key is pressed or playback finishes.

Modelling conventions:
- i16 samples are modelled as integers (ℤ), with the relevant constants
  32767 (i16::MAX) and -32768 (i16::MIN) explicit.
- f32 arithmetic is modelled by exact arithmetic over ℚ (for the mean of
  squares, heights) and ℝ (for sqrt and log10). The one place where the
  f32 computation leaves the finite range - 20.0 * log10(0.0) evaluates
  to negative infinity, which `.clamp(0.0, 1.0)` then maps to the lower
  bound 0.0 - is modelled by an explicit case split on rms = 0.
- The mutex makes each push-then-evict of the background thread atomic
  with respect to the reader, so the shared vector is modelled as a pure
  list transformed by one atomic operation per chunk.
-/

/-- Line 23: `const WINDOW_SIZE: usize = 100`. -/
def WINDOW_SIZE : Nat := 100

/-- `i16::MAX` = 32767, the divisor used at line 52. -/
def i16_MAX : Int := 32767

/-- `i16::MIN` = -32768, the smallest signed 16-bit sample. -/
def i16_MIN : Int := -32768

/-- Lines 59-63, one critical section of the extractor thread:
`levels.push(normalized_db); if levels.len() > WINDOW_SIZE { levels.remove(0); }`.
`Vec::push` appends at the end and `Vec::remove(0)` removes the front
(oldest) element. The mutex is held across both, so the reader observes
the combined operation atomically. -/
def pushLevel (levels : List ℝ) (v : ℝ) : List ℝ :=
  let pushed := levels ++ [v]
  if pushed.length > WINDOW_SIZE then pushed.drop 1 else pushed

/-- The Level History after the extractor has appended the values `vs`
in order, starting from the empty vector created at line 42. -/
def levelHistory (vs : List ℝ) : List ℝ :=
  vs.foldl pushLevel []

/-- Line 77: `(0..WINDOW_SIZE).map(|i| i.to_string())`. -/
def labels : List String :=
  (List.range WINDOW_SIZE).map toString

/-- Line 49: `samples_clone.chunks(chunk_size)`. Rust `slice::chunks(n)`
(for n ≥ 1; n = 0 panics and is outside this model) splits a slice into
consecutive pieces of length n, the last piece possibly shorter, and
yields no piece for an empty slice. -/
def chunks (n : Nat) : List Int → List (List Int)
  | [] => []
  | x :: xs => (x :: xs).take n :: chunks n (xs.drop (n - 1))
termination_by l => l.length
decreasing_by
  simp only [List.length_drop, List.length_cons]
  omega

-- Basic facts about `pushLevel` / `levelHistory`.

theorem pushLevel_length_le (levels : List ℝ) (v : ℝ)
    (h : levels.length ≤ WINDOW_SIZE) :
    (pushLevel levels v).length ≤ WINDOW_SIZE := by
  unfold pushLevel
  by_cases hc : (levels ++ [v]).length > WINDOW_SIZE
  · simp only [hc, if_pos, List.length_drop]
    simp only [List.length_append, List.length_singleton] at hc ⊢
    omega
  · simp only [hc, if_neg, not_false_iff]
    omega

theorem levelHistory_append_one (vs : List ℝ) (v : ℝ) :
    levelHistory (vs ++ [v]) = pushLevel (levelHistory vs) v := by
  unfold levelHistory
  rw [List.foldl_append]
  rfl

/-- The history after appending `vs` is exactly the suffix of `vs` made of
the most recent `WINDOW_SIZE` values (all of `vs` when there are fewer). -/
theorem levelHistory_eq_drop (vs : List ℝ) :
    levelHistory vs = vs.drop (vs.length - WINDOW_SIZE) := by
  induction vs using List.reverseRecOn with
  | nil => rfl
  | append_singleton vs v ih =>
    rw [levelHistory_append_one, ih]
    have hW : 0 < WINDOW_SIZE := by decide
    simp only [pushLevel]
    by_cases hlen : vs.length < WINDOW_SIZE
    · have h0 : vs.length - WINDOW_SIZE = 0 := by omega
      have h1 : (vs ++ [v]).length - WINDOW_SIZE = 0 := by
        simp only [List.length_append, List.length_cons, List.length_nil]
        omega
      rw [h0, List.drop_zero, h1, List.drop_zero]
      rw [if_neg]
      simp only [List.length_append, List.length_cons, List.length_nil]
      omega
    · push_neg at hlen
      have hdroplen : (List.drop (vs.length - WINDOW_SIZE) vs).length = WINDOW_SIZE := by
        simp only [List.length_drop]
        omega
      have hc : (List.drop (vs.length - WINDOW_SIZE) vs ++ [v]).length > WINDOW_SIZE := by
        simp only [List.length_append, hdroplen, List.length_cons, List.length_nil]
        omega
      rw [if_pos hc]
      have h1 : 1 ≤ (List.drop (vs.length - WINDOW_SIZE) vs).length := by omega
      rw [List.drop_append_of_le_length h1, List.drop_drop]
      have hlen2 : (vs ++ [v]).length - WINDOW_SIZE = vs.length - WINDOW_SIZE + 1 := by
        simp only [List.length_append, List.length_cons, List.length_nil]
        omega
      rw [hlen2]
      have h2 : vs.length - WINDOW_SIZE + 1 ≤ vs.length := by omega
      rw [List.drop_append_of_le_length h2]

theorem levelHistory_length_le (vs : List ℝ) :
    (levelHistory vs).length ≤ WINDOW_SIZE := by
  rw [levelHistory_eq_drop]
  simp only [List.length_drop]
  by_cases h : vs.length ≤ WINDOW_SIZE
  · omega
  · omega

-- Facts about `chunks` (for chunk size at least 1, the only case the
-- program reaches when the sample rate is at least 20 Hz).

theorem chunks_nil (n : Nat) : chunks n [] = [] := by
  rw [chunks]

theorem chunks_cons (n : Nat) (x : Int) (xs : List Int) :
    chunks n (x :: xs) = (x :: xs).take n :: chunks n (xs.drop (n - 1)) := by
  rw [chunks]

theorem chunks_eq_nil_iff (n : Nat) (l : List Int) :
    chunks n l = [] ↔ l = [] := by
  cases l with
  | nil => simp [chunks_nil]
  | cons x xs => simp [chunks_cons]

/-- The chunks concatenate back to the original stream: they are
contiguous, non-overlapping, in order, and cover everything. -/
theorem chunks_join (n : Nat) (hn : 1 ≤ n) (l : List Int) :
    (chunks n l).flatten = l := by
  induction l using chunks.induct n with
  | case1 => simp [chunks_nil]
  | case2 x xs ih =>
    rw [chunks_cons]
    simp only [List.flatten_cons, ih]
    cases n with
    | zero => omega
    | succ m =>
      simp only [List.take_succ_cons, Nat.add_sub_cancel, List.cons_append,
        List.take_append_drop]

/-- Every chunk is non-empty and no longer than the chunk size. -/
theorem chunks_mem_length (n : Nat) (hn : 1 ≤ n) (l : List Int) :
    ∀ c ∈ chunks n l, c ≠ [] ∧ c.length ≤ n := by
  induction l using chunks.induct n with
  | case1 => simp [chunks_nil]
  | case2 x xs ih =>
    rw [chunks_cons]
    intro c hc
    rcases List.mem_cons.mp hc with h | h
    · subst h
      constructor
      · cases n with
        | zero => omega
        | succ m => simp [List.take_succ_cons]
      · exact List.length_take_le n _
    · exact ih c h

/-- Every chunk except possibly the last has length exactly the chunk
size. -/
theorem chunks_dropLast_length (n : Nat) (hn : 1 ≤ n) (l : List Int) :
    ∀ c ∈ (chunks n l).dropLast, c.length = n := by
  induction l using chunks.induct n with
  | case1 => simp [chunks_nil]
  | case2 x xs ih =>
    rw [chunks_cons]
    by_cases hrest : chunks n (xs.drop (n - 1)) = []
    · simp [hrest]
    · rw [List.dropLast_cons_of_ne_nil hrest]
      intro c hc
      rcases List.mem_cons.mp hc with h | h
      · subst h
        have hxs : ¬ (xs.drop (n - 1) = []) := by
          intro hnil
          exact hrest ((chunks_eq_nil_iff n _).mpr hnil)
        have hlen : n - 1 < xs.length := by
          by_contra hle
          push_neg at hle
          exact hxs (List.drop_eq_nil_of_le hle)
        have : n ≤ (x :: xs).length := by
          simp only [List.length_cons]
          omega
        exact List.length_take_of_le this
      · exact ih c h

/-- A non-empty stream no longer than one chunk yields exactly one chunk:
the whole stream. -/
theorem chunks_short (n : Nat) (hn : 1 ≤ n) (l : List Int)
    (hne : l ≠ []) (hlen : l.length ≤ n) : chunks n l = [l] := by
  cases l with
  | nil => exact absurd rfl hne
  | cons x xs =>
    rw [chunks_cons]
    have h1 : xs.drop (n - 1) = [] := by
      apply List.drop_eq_nil_of_le
      simp only [List.length_cons] at hlen
      omega
    rw [h1, chunks_nil, List.take_of_length_le hlen]

-- The loudness computation, lines 50-57. f32 arithmetic is modelled by
-- exact arithmetic; the mean of squares is a rational number, the square
-- root and base-10 logarithm live in ℝ.

/-- Line 52: `s as f32 / i16::MAX as f32`, the per-sample normalization. -/
def sampleNorm (s : Int) : ℚ :=
  (s : ℚ) / (i16_MAX : ℚ)

/-- Line 52: `(s as f32 / i16::MAX as f32).powi(2)`. -/
def sampleSq (s : Int) : ℚ :=
  (sampleNorm s) ^ 2

/-- Lines 50-54: the squared samples summed and divided by `chunk.len()`.
Only ever applied to non-empty chunks (see `chunks_mem_length`), so the
divisor is non-zero. -/
def meanSquare (chunk : List Int) : ℚ :=
  (chunk.map sampleSq).sum / (chunk.length : ℚ)

/-- Lines 50-55: `rms`, the square root of the mean square. -/
noncomputable def rms (chunk : List Int) : ℝ :=
  Real.sqrt ((meanSquare chunk : ℝ))

/-- Rust `x.clamp(0.0, 1.0)` on a finite float: below 0 gives 0, above 1
gives 1, otherwise the value itself. -/
noncomputable def clamp01 (x : ℝ) : ℝ :=
  min (max x 0) 1

/-- Lines 56-57: `db = 20.0 * rms.log10()` followed by
`((db + 60.0) / 60.0).clamp(0.0, 1.0)`. The case `rms = 0` is split off
explicitly: there the f32 computation gives `log10(0.0)` = negative
infinity, `db` and `(db + 60.0) / 60.0` are negative infinity, and
`clamp(0.0, 1.0)` maps negative infinity to the lower bound 0.0, so the
appended value is exactly 0.0 and no non-finite value escapes. -/
noncomputable def normalized_db (chunk : List Int) : ℝ :=
  if rms chunk = 0 then 0
  else clamp01 ((20 * Real.logb 10 (rms chunk) + 60) / 60)

theorem sampleSq_nonneg (s : Int) : 0 ≤ sampleSq s :=
  sq_nonneg _

theorem meanSquare_nonneg (chunk : List Int) : 0 ≤ meanSquare chunk := by
  unfold meanSquare
  apply div_nonneg
  · apply List.sum_nonneg
    intro x hx
    rcases List.mem_map.mp hx with ⟨s, _, rfl⟩
    exact sampleSq_nonneg s
  · exact_mod_cast Nat.zero_le _

theorem rms_nonneg (chunk : List Int) : 0 ≤ rms chunk :=
  Real.sqrt_nonneg _

theorem clamp01_mem (x : ℝ) : 0 ≤ clamp01 x ∧ clamp01 x ≤ 1 := by
  unfold clamp01
  constructor
  · exact le_min (le_max_right x 0) zero_le_one
  · exact min_le_right _ 1

/-- A chunk of zeros has zero mean square. -/
theorem meanSquare_eq_zero_of_silent (chunk : List Int)
    (hz : ∀ s ∈ chunk, s = 0) : meanSquare chunk = 0 := by
  unfold meanSquare
  have hsum : (chunk.map sampleSq).sum = 0 := by
    apply List.sum_eq_zero
    intro x hx
    rcases List.mem_map.mp hx with ⟨s, hs, rfl⟩
    rw [hz s hs]
    simp [sampleSq, sampleNorm]
  rw [hsum, zero_div]

/-- A sample of magnitude at least `i16::MAX` has squared normalization at
least 1. -/
theorem one_le_sampleSq (s : Int) (h : (32767 : Int) ≤ |s|) :
    1 ≤ sampleSq s := by
  unfold sampleSq sampleNorm i16_MAX
  have habs : (32767 : ℚ) ≤ |(s : ℚ)| := by
    rw [← Int.cast_abs]
    exact_mod_cast h
  have hsq : |(s : ℚ)| ^ 2 = (s : ℚ) ^ 2 := sq_abs _
  rw [div_pow, le_div_iff₀ (by positivity), one_mul]
  push_cast
  nlinarith [abs_nonneg (s : ℚ)]

/-- A list of rationals that are all at least 1 has sum at least its
length. -/
theorem length_le_sum_of_one_le_rat (L : List ℚ)
    (h : ∀ x ∈ L, (1 : ℚ) ≤ x) : (L.length : ℚ) ≤ L.sum := by
  induction L with
  | nil => simp
  | cons a t ih =>
    have ha := h a (List.mem_cons_self a t)
    have ht := ih (fun x hx => h x (List.mem_cons_of_mem a hx))
    simp only [List.length_cons, List.sum_cons]
    push_cast
    linarith

/-- In a non-empty chunk whose samples all have magnitude at least
`i16::MAX`, the mean square is at least 1. -/
theorem one_le_meanSquare (chunk : List Int) (hne : chunk ≠ [])
    (h : ∀ s ∈ chunk, (32767 : Int) ≤ |s|) : 1 ≤ meanSquare chunk := by
  unfold meanSquare
  rw [one_le_div (by exact_mod_cast List.length_pos.mpr hne)]
  have hall : ∀ x ∈ chunk.map sampleSq, (1 : ℚ) ≤ x := by
    intro x hx
    rcases List.mem_map.mp hx with ⟨s, hs, rfl⟩
    exact one_le_sampleSq s (h s hs)
  calc ((chunk.length : ℚ)) = ((chunk.map sampleSq).length : ℚ) := by
        rw [List.length_map]
    _ ≤ (chunk.map sampleSq).sum := length_le_sum_of_one_le_rat _ hall

theorem rms_eq_zero_of_silent (chunk : List Int)
    (hz : ∀ s ∈ chunk, s = 0) : rms chunk = 0 := by
  unfold rms
  rw [meanSquare_eq_zero_of_silent chunk hz]
  exact_mod_cast Real.sqrt_zero

theorem one_le_rms (chunk : List Int) (hne : chunk ≠ [])
    (h : ∀ s ∈ chunk, (32767 : Int) ≤ |s|) : 1 ≤ rms chunk := by
  unfold rms
  calc (1 : ℝ) = Real.sqrt 1 := Real.sqrt_one.symm
    _ ≤ Real.sqrt ((meanSquare chunk : ℝ)) := by
        apply Real.sqrt_le_sqrt
        exact_mod_cast one_le_meanSquare chunk hne h

theorem clamp01_of_one_le (x : ℝ) (h : 1 ≤ x) : clamp01 x = 1 := by
  unfold clamp01
  rw [max_eq_left (le_trans zero_le_one h), min_eq_right h]

-- The draw phase, lines 89-93. Each level value is mapped to
-- `(level * 100.0) as u64`. A Rust float-to-integer `as` cast truncates
-- toward zero and saturates at the bounds of the target type; for a
-- non-negative finite float this is the floor, capped at u64::MAX.

/-- Rust `x as u64` for a finite f32 value `x`: truncation toward zero,
saturating at 0 below and at `u64::MAX` above. -/
noncomputable def f32_as_u64 (x : ℝ) : Nat :=
  min (Int.toNat ⌊x⌋) (2 ^ 64 - 1)

/-- Line 92: the displayed bar height `(level * 100.0) as u64`. -/
noncomputable def barHeight (level : ℝ) : Nat :=
  f32_as_u64 (level * 100)

/-- The mapping the spec describes instead: `round(v * 100)`, rounding to
the nearest integer. -/
noncomputable def barHeightSpec (level : ℝ) : Nat :=
  Int.toNat (round (level * 100))

-- The render loop, lines 80-121. Each iteration draws, then polls for
-- one input event with a 50 ms timeout, breaking on the character 'q',
-- then breaks if the playback sink reports its queue empty.

/-- The key codes distinguished by the loop: `KeyCode::Char(c)` versus
every other key code (lines 111-112). -/
inductive RKeyCode where
  | char : Char → RKeyCode
  | other : RKeyCode
deriving DecidableEq

/-- The events the loop can read: a key event carrying a key code, or a
non-key event (mouse, resize, ...), line 111. -/
inductive REvent where
  | key : RKeyCode → REvent
  | nonKey : REvent
deriving DecidableEq

/-- What one loop iteration observes: the event delivered within the 50 ms
poll window (`none` when the poll times out, line 110) and the result of
`sink.empty()` (line 118). -/
structure TickInput where
  event : Option REvent
  sinkEmpty : Bool
deriving DecidableEq

/-- Lines 110-116: the iteration breaks on a key event whose code is
`KeyCode::Char('q')`. -/
def isQuitKey : Option REvent → Bool
  | some (REvent.key (RKeyCode.char c)) => c = 'q'
  | _ => false

/-- One iteration of the loop body breaks out exactly when the quit key
was observed (lines 110-116) or the sink is empty (lines 118-120). -/
def breakCond (i : TickInput) : Bool :=
  isQuitKey i.event || i.sinkEmpty

/-- The two states of the render-loop lifecycle. -/
inductive LoopState where
  | running : LoopState
  | terminating : LoopState
deriving DecidableEq

/-- The loop as a state machine over iteration inputs: once the loop has
broken out (`terminating`), no further iteration runs; while running, an
iteration breaks exactly on `breakCond`. -/
def loopStep : LoopState → TickInput → LoopState
  | LoopState.terminating, _ => LoopState.terminating
  | LoopState.running, i =>
      if breakCond i then LoopState.terminating else LoopState.running

/-- The loop state after the iterations described by `inputs`, starting
from the initial `running` state at line 80. -/
def runLoop (inputs : List TickInput) : LoopState :=
  inputs.foldl loopStep LoopState.running

theorem loopStep_terminating_absorbs (i : TickInput) :
    loopStep LoopState.terminating i = LoopState.terminating := rfl

theorem foldl_loopStep_terminating (inputs : List TickInput) :
    inputs.foldl loopStep LoopState.terminating = LoopState.terminating := by
  induction inputs with
  | nil => rfl
  | cons i rest ih => simpa [loopStep] using ih

theorem runLoop_eq_terminating_iff (inputs : List TickInput) :
    runLoop inputs = LoopState.terminating ↔
      ∃ i ∈ inputs, breakCond i = true := by
  induction inputs with
  | nil =>
    simp [runLoop, List.foldl_nil]
  | cons i rest ih =>
    by_cases hb : breakCond i = true
    · have hstep : loopStep LoopState.running i = LoopState.terminating := by
        simp [loopStep, hb]
      unfold runLoop
      rw [List.foldl_cons, hstep, foldl_loopStep_terminating]
      constructor
      · intro _
        exact ⟨i, List.mem_cons_self i rest, hb⟩
      · intro _
        rfl
    · have hstep : loopStep LoopState.running i = LoopState.running := by
        simp [loopStep, hb]
      unfold runLoop at ih ⊢
      rw [List.foldl_cons, hstep, ih]
      constructor
      · rintro ⟨j, hj, hjb⟩
        exact ⟨j, List.mem_cons_of_mem i hj, hjb⟩
      · rintro ⟨j, hj, hjb⟩
        rcases List.mem_cons.mp hj with rfl | hj2
        · exact absurd hjb hb
        · exact ⟨j, hj2, hjb⟩

-- Claim theorems.

/-- C1: the Level History never holds more than WINDOW_SIZE (100) entries
in any state observable by the reader (each push-then-evict happens under
the mutex), and after any sequence of appends it is exactly the suffix of
the emitted values consisting of the most recent WINDOW_SIZE of them, in
emission order, oldest first - i.e. each insertion beyond capacity evicts
exactly the oldest entry, strict FIFO. -/
theorem C1_level_history_bounded_fifo (vs : List ℝ) :
    (levelHistory vs).length ≤ WINDOW_SIZE ∧
    levelHistory vs = vs.drop (vs.length - WINDOW_SIZE) :=
  ⟨levelHistory_length_le vs, levelHistory_eq_drop vs⟩

/-- C2: for every non-empty chunk of signed 16-bit samples, the normalized
loudness computed at lines 50-57 lies in [0, 1]. The model is a total
real-valued function: the one non-finite intermediate value, the negative
infinity from log10 of a zero rms, is the explicit first branch of
`normalized_db` and is mapped to 0 by the clamp, so no NaN or infinity
escapes. -/
theorem C2_normalized_loudness_in_unit_interval (chunk : List Int)
    (_hne : chunk ≠ []) :
    0 ≤ normalized_db chunk ∧ normalized_db chunk ≤ 1 := by
  unfold normalized_db
  by_cases h : rms chunk = 0
  · rw [if_pos h]
    exact ⟨le_refl 0, zero_le_one⟩
  · rw [if_neg h]
    exact clamp01_mem _

theorem C2_witness :
    0 ≤ normalized_db [1] ∧ normalized_db [1] ≤ 1 :=
  C2_normalized_loudness_in_unit_interval [1] (by decide)

/-- C3: a non-empty all-zero chunk yields normalized loudness exactly 0:
the rms is 0, the f32 computation gives db = 20 * log10(0) = negative
infinity, and the clamp maps it to the lower bound 0.0 rather than
propagating it, so no NaN or infinite value is appended. -/
theorem C3_silent_chunk_yields_zero (chunk : List Int)
    (_hne : chunk ≠ []) (hz : ∀ s ∈ chunk, s = 0) :
    normalized_db chunk = 0 := by
  unfold normalized_db
  rw [if_pos (rms_eq_zero_of_silent chunk hz)]

theorem C3_witness : normalized_db [0, 0, 0] = 0 :=
  C3_silent_chunk_yields_zero [0, 0, 0] (by decide) (by decide)

/-- C4: with a sample rate of at least 20 Hz the chunk length
`sample_rate / 20` is at least 1, so on a non-empty stream every chunk
the extractor iterates over is non-empty and the divisor `chunk.len()`
in the rms computation is non-zero; in particular a stream shorter than
one chunk is processed as the single short chunk `[l]`. (The extractor
loop is total: `chunks` is a terminating Lean function and the iteration
is a fold over its finite result.) -/
theorem C4_no_division_by_zero (sr : Nat) (l : List Int)
    (hsr : 20 ≤ sr) (hne : l ≠ []) :
    (∀ c ∈ chunks (sr / 20) l, 0 < c.length ∧ ((c.length : ℚ) ≠ 0)) ∧
    (l.length < sr / 20 → chunks (sr / 20) l = [l]) := by
  have hn : 1 ≤ sr / 20 := by
    calc 1 = 20 / 20 := by norm_num
      _ ≤ sr / 20 := Nat.div_le_div_right hsr
  constructor
  · intro c hc
    have h := (chunks_mem_length (sr / 20) hn l c hc).1
    have hpos : 0 < c.length := List.length_pos.mpr h
    refine ⟨hpos, ?_⟩
    exact_mod_cast Nat.pos_iff_ne_zero.mp hpos
  · intro hshort
    exact chunks_short (sr / 20) hn l hne (le_of_lt hshort)

theorem C4_witness :
    (∀ c ∈ chunks (40 / 20) [5], 0 < c.length ∧ ((c.length : ℚ) ≠ 0)) ∧
    (List.length [5] < 40 / 20 → chunks (40 / 20) [5] = [[5]]) :=
  C4_no_division_by_zero 40 [5] (by decide) (by decide)

/-- C5: a non-empty chunk in which every sample has maximum magnitude -
whether that is read as `i16::MAX` = 32767 (and its negation) or as the
true maximum representable magnitude 32768 = |i16::MIN| - yields
normalized loudness exactly 1.0: the mean square is at least 1, so the
rms is at least 1, the decibel value is at least 0, the affine map sends
it to at least 1, and the clamp returns exactly 1. -/
theorem C5_fullscale_chunk_yields_one (chunk : List Int)
    (hne : chunk ≠ [])
    (hmax : ∀ s ∈ chunk, s = i16_MAX ∨ s = -i16_MAX ∨ s = i16_MIN) :
    normalized_db chunk = 1 := by
  have habs : ∀ s ∈ chunk, (32767 : Int) ≤ |s| := by
    intro s hs
    rcases hmax s hs with rfl | rfl | rfl <;> decide
  have h1 : 1 ≤ rms chunk := one_le_rms chunk hne habs
  have h0 : ¬ (rms chunk = 0) := by
    intro h
    rw [h] at h1
    linarith
  unfold normalized_db
  rw [if_neg h0]
  apply clamp01_of_one_le
  have hlog : 0 ≤ Real.logb 10 (rms chunk) :=
    Real.logb_nonneg (by norm_num) h1
  rw [le_div_iff₀ (by norm_num : (0 : ℝ) < 60), one_mul]
  linarith

theorem C5_witness : normalized_db [32767] = 1 :=
  C5_fullscale_chunk_yields_one [32767] (by decide) (by decide)

/-- C6: for any sample rate of at least 20 Hz, `chunks (sample_rate / 20)`
partitions the stream: the chunks concatenate back to the whole stream in
order (contiguous, non-overlapping, covering), every chunk has length at
most `sample_rate / 20`, and every chunk except possibly the final one
has length exactly `sample_rate / 20`. -/
theorem C6_chunks_partition (sr : Nat) (hsr : 20 ≤ sr) (l : List Int) :
    (chunks (sr / 20) l).flatten = l ∧
    (∀ c ∈ chunks (sr / 20) l, c ≠ [] ∧ c.length ≤ sr / 20) ∧
    (∀ c ∈ (chunks (sr / 20) l).dropLast, c.length = sr / 20) := by
  have hn : 1 ≤ sr / 20 := by
    calc 1 = 20 / 20 := by norm_num
      _ ≤ sr / 20 := Nat.div_le_div_right hsr
  exact ⟨chunks_join _ hn l, chunks_mem_length _ hn l,
    chunks_dropLast_length _ hn l⟩

theorem C6_witness :
    (chunks (40 / 20) [1, 2, 3]).flatten = [1, 2, 3] ∧
    (∀ c ∈ chunks (40 / 20) [1, 2, 3], c ≠ [] ∧ c.length ≤ 40 / 20) ∧
    (∀ c ∈ (chunks (40 / 20) [1, 2, 3]).dropLast, c.length = 40 / 20) :=
  C6_chunks_partition 40 (by decide) [1, 2, 3]

/-- C7 counterexample: the draw closure computes `(level * 100.0) as u64`,
which truncates toward zero; at the level value 0.015 this gives
floor(1.5) = 1, while rounding to the nearest integer as the claim states
would give 2. -/
theorem C7_counterexample :
    barHeight ((3 : ℝ) / 200) ≠ barHeightSpec ((3 : ℝ) / 200) := by
  have hv : ((3 : ℝ) / 200) * 100 = 3 / 2 := by norm_num
  have hf : ⌊(3 / 2 : ℝ)⌋ = 1 := by
    rw [Int.floor_eq_iff]
    constructor <;> norm_num
  have hr : round ((3 / 2 : ℝ)) = 2 := by
    rw [round_eq]
    rw [show (3 / 2 : ℝ) + 1 / 2 = 2 by norm_num]
    exact_mod_cast Int.floor_intCast 2
  unfold barHeight barHeightSpec f32_as_u64
  rw [hv, hf, hr]
  decide

/-- C7 (amended): for every level value v in [0, 1], the displayed bar
height is the truncation of v * 100 toward zero, i.e. floor(v * 100)
(the `as u64` cast), not round-to-nearest. -/
theorem C7_bar_height_is_floor (v : ℝ) (_h0 : 0 ≤ v) (h1 : v ≤ 1) :
    barHeight v = Int.toNat ⌊v * 100⌋ := by
  unfold barHeight f32_as_u64
  apply min_eq_left
  have hle : v * 100 ≤ 100 := by nlinarith
  have hfloor : ⌊v * 100⌋ ≤ 100 := by
    calc ⌊v * 100⌋ ≤ ⌊(100 : ℝ)⌋ := Int.floor_le_floor hle
      _ = 100 := by exact_mod_cast Int.floor_intCast 100
  omega

theorem C7_witness : barHeight ((1 : ℝ) / 2) = Int.toNat ⌊((1 : ℝ) / 2) * 100⌋ :=
  C7_bar_height_is_floor ((1 : ℝ) / 2) (by norm_num) (by norm_num)

/-- C8 counterexample: the per-sample normalization divides by
`i16::MAX` = 32767, so the minimum sample -32768 maps to -32768/32767,
which is strictly below -1: the claimed interval [-1, 1] does not hold
for every i16 sample. -/
theorem C8_counterexample :
    ¬ (-1 ≤ sampleNorm i16_MIN ∧ sampleNorm i16_MIN ≤ 1) := by
  intro h
  have h1 := h.1
  norm_num [sampleNorm, i16_MIN, i16_MAX] at h1

/-- C8 (amended): for every i16 sample s, the normalized value s / 32767
lies in [-32768/32767, 1]; it lies in the claimed interval [-1, 1]
whenever s is at least -32767, the single exception being s = -32768,
which lands at -32768/32767, just below -1. -/
theorem C8_sample_norm_bounds (s : Int)
    (hlo : i16_MIN ≤ s) (hhi : s ≤ i16_MAX) :
    ((i16_MIN : ℚ) / (i16_MAX : ℚ) ≤ sampleNorm s ∧ sampleNorm s ≤ 1) ∧
    (-i16_MAX ≤ s → -1 ≤ sampleNorm s) := by
  have h32 : (0 : ℚ) < ((i16_MAX : Int) : ℚ) := by
    norm_num [i16_MAX]
  have hsc : ((s : ℚ)) ≤ ((i16_MAX : Int) : ℚ) := by exact_mod_cast hhi
  have hsl : (((i16_MIN : Int) : ℚ)) ≤ (s : ℚ) := by exact_mod_cast hlo
  refine ⟨⟨?_, ?_⟩, ?_⟩
  · unfold sampleNorm
    exact (div_le_div_iff_of_pos_right h32).mpr hsl
  · unfold sampleNorm
    rw [div_le_one h32]
    exact hsc
  · intro hge
    have hgc : (((-i16_MAX : Int) : ℚ)) ≤ (s : ℚ) := by exact_mod_cast hge
    unfold sampleNorm
    rw [neg_le, ← neg_div]
    calc (-(s : ℚ)) / ((i16_MAX : Int) : ℚ)
        ≤ ((i16_MAX : Int) : ℚ) / ((i16_MAX : Int) : ℚ) := by
          rw [div_le_div_iff_of_pos_right h32]
          push_cast at hgc ⊢
          linarith
      _ = 1 := div_self (ne_of_gt h32)

/-- C9: the render loop leaves the running state exactly when an iteration
observes a key event for the character 'q' or the playback sink reports
its queue empty, and never otherwise; and the terminating state is
absorbing - once reached, no further iteration changes it, matching the
break that leads straight to cleanup and process exit. -/
theorem C9_loop_exit_condition (inputs : List TickInput) :
    (runLoop inputs = LoopState.terminating ↔
      ∃ i ∈ inputs, isQuitKey i.event = true ∨ i.sinkEmpty = true) ∧
    (∀ i, loopStep LoopState.terminating i = LoopState.terminating) := by
  constructor
  · rw [runLoop_eq_terminating_iff]
    constructor
    · rintro ⟨i, hi, hb⟩
      exact ⟨i, hi, Bool.or_eq_true _ _ |>.mp hb⟩
    · rintro ⟨i, hi, hb⟩
      exact ⟨i, hi, Bool.or_eq_true _ _ |>.mpr hb⟩
  · intro i
    exact loopStep_terminating_absorbs i

/-- C10: the labels vector built at line 77 has exactly WINDOW_SIZE
entries, and every index into a snapshot of the Level History is below
its length, which the buffer invariant keeps at or below WINDOW_SIZE -
so `labels[i]` in the draw closure (line 92) is always in bounds. -/
theorem C10_labels_index_in_bounds (vs : List ℝ) (i : Nat)
    (hi : i < (levelHistory vs).length) :
    i < labels.length := by
  have hlabels : labels.length = WINDOW_SIZE := by
    unfold labels
    rw [List.length_map, List.length_range]
  rw [hlabels]
  exact lt_of_lt_of_le hi (levelHistory_length_le vs)

theorem C10_witness : 0 < labels.length :=
  C10_labels_index_in_bounds [(0 : ℝ)] 0
    (by norm_num [levelHistory, pushLevel, WINDOW_SIZE])

theorem C8_witness :
    (((i16_MIN : ℚ) / (i16_MAX : ℚ) ≤ sampleNorm (-32767) ∧
        sampleNorm (-32767) ≤ 1) ∧
      (-i16_MAX ≤ (-32767 : Int) → -1 ≤ sampleNorm (-32767))) :=
  C8_sample_norm_bounds (-32767) (by decide) (by decide)
